import Mathlib

/-!
# Verification of the aimtune guitar-tuner core

A shallow embedding of `src/aimersfirstTryFronted.py`, the real-time
guitar-tuning pipeline: volume gating, autocorrelation pitch estimation
with parabolic sub-sample refinement, target resolution (automatic
nearest-note or manual override), cents computation, and the display
mapping of the UI layer.

Modelling conventions:

* Python/numpy floating-point values are modelled by a linearly ordered
  field `α` (instantiated at `ℚ` for executable claims and at `ℝ` where a
  claim's statement needs the real logarithm), extended to `NF α` with the
  IEEE special values `+∞`, `-∞` and `NaN`.  numpy scalar arithmetic never
  raises on division by zero: it produces `±∞` or `NaN`, which `nfDiv`
  reproduces; the only exception the source can see at the cents step is
  `math.log2`'s `ValueError` on nonpositive arguments, modelled by
  `math_log2` returning `Except`.
* Transcendental functions that the source applies pointwise and whose
  exact values no claim depends on are passed as parameters: `sq` for
  `np.sqrt` (the volume gate), `lg` for the mathematical base-2 logarithm
  inside `math.log2` (instantiated with `Real.logb 2` where values
  matter), and `w` for the fixed Hann window `np.hanning(BUFFER_SIZE)`
  (whose entries are transcendental).  Every theorem quantifies over these
  parameters, so each holds in particular at the source's instantiation.
* numpy array operations are modelled on `List α`: `npDiff` is `np.diff`,
  `firstTrueIdx` is `np.where(...)[0][0]` (with `none` for the
  `IndexError` the source catches), `npArgmax` is `np.argmax` (first index
  of the maximum), `autocorr` is the nonnegative-lag half of
  `np.correlate(v, v, mode='full')`.
-/

/-- `SAMPLE_RATE = 44100` from the source. -/
def SAMPLE_RATE : ℕ := 44100

/-- `BUFFER_SIZE = 4096` from the source. -/
def BUFFER_SIZE : ℕ := 4096

variable {α : Type} [LinearOrderedField α]

/-- The `GUITAR_STRINGS` table of the source, in its (insertion-ordered)
iteration order E2, A2, D3, G3, B3, E4. -/
def GUITAR_STRINGS (α : Type) [LinearOrderedField α] : List (String × α) :=
  [("E2", 82.41), ("A2", 110.00), ("D3", 146.83), ("G3", 196.00),
   ("B3", 246.94), ("E4", 329.63)]

/-- `ORDERED_KEYS` from the source: the canonical presentation ordering. -/
def ORDERED_KEYS : List String := ["E2", "A2", "D3", "G3", "B3", "E4"]

/-- `NOISE_THRESHOLD = 0.02` from the source. -/
def NOISE_THRESHOLD (α : Type) [LinearOrderedField α] : α := 0.02

/-- A numpy floating-point scalar over the exact field `α`: a finite value,
one of the two infinities, or NaN.  (Rounding is not modelled; the special
values and their comparison/arithmetic rules are.) -/
inductive NF (α : Type) where
  | fin (x : α)
  | pinf
  | ninf
  | nan
deriving DecidableEq

/-- IEEE negation. -/
def nfNeg : NF α → NF α
  | .fin x => .fin (-x)
  | .pinf => .ninf
  | .ninf => .pinf
  | .nan => .nan

/-- IEEE addition: NaN propagates, `+∞ + -∞ = NaN`. -/
def nfAdd : NF α → NF α → NF α
  | .nan, _ => .nan
  | _, .nan => .nan
  | .pinf, .ninf => .nan
  | .ninf, .pinf => .nan
  | .pinf, _ => .pinf
  | _, .pinf => .pinf
  | .ninf, _ => .ninf
  | _, .ninf => .ninf
  | .fin a, .fin b => .fin (a + b)

/-- IEEE subtraction. -/
def nfSub (a b : NF α) : NF α := nfAdd a (nfNeg b)

/-- IEEE multiplication: NaN propagates, `0 * ±∞ = NaN`. -/
def nfMul : NF α → NF α → NF α
  | .nan, _ => .nan
  | _, .nan => .nan
  | .fin a, .fin b => .fin (a * b)
  | .fin a, .pinf => if 0 < a then .pinf else if a < 0 then .ninf else .nan
  | .fin a, .ninf => if 0 < a then .ninf else if a < 0 then .pinf else .nan
  | .pinf, .fin b => if 0 < b then .pinf else if b < 0 then .ninf else .nan
  | .ninf, .fin b => if 0 < b then .ninf else if b < 0 then .pinf else .nan
  | .pinf, .pinf => .pinf
  | .pinf, .ninf => .ninf
  | .ninf, .pinf => .ninf
  | .ninf, .ninf => .pinf

/-- IEEE division as numpy performs it (never raising): `x/0` is `NaN` for
`x = 0` and `±∞` otherwise (the exact model has only the positive zero),
`finite/±∞ = 0`, `±∞/±∞ = NaN`. -/
def nfDiv : NF α → NF α → NF α
  | .nan, _ => .nan
  | _, .nan => .nan
  | .fin a, .fin b =>
      if b = 0 then (if a = 0 then .nan else if 0 < a then .pinf else .ninf)
      else .fin (a / b)
  | .fin _, .pinf => .fin 0
  | .fin _, .ninf => .fin 0
  | .pinf, .fin b => if 0 ≤ b then .pinf else .ninf
  | .ninf, .fin b => if 0 ≤ b then .ninf else .pinf
  | .pinf, .pinf => .nan
  | .pinf, .ninf => .nan
  | .ninf, .pinf => .nan
  | .ninf, .ninf => .nan

/-- IEEE absolute value. -/
def nfAbs : NF α → NF α
  | .fin x => .fin |x|
  | .pinf => .pinf
  | .ninf => .pinf
  | .nan => .nan

/-- IEEE `<`: every comparison involving NaN is false. -/
def nfLt : NF α → NF α → Bool
  | .nan, _ => false
  | _, .nan => false
  | .ninf, .ninf => false
  | .ninf, _ => true
  | _, .ninf => false
  | .pinf, _ => false
  | _, .pinf => true
  | .fin a, .fin b => decide (a < b)

/-- `np.diff`: `d[i] = l[i+1] - l[i]`, one element shorter than `l`. -/
def npDiff : List α → List α
  | [] => []
  | [_] => []
  | x :: y :: rest => (y - x) :: npDiff (y :: rest)

/-- `np.where(p)[0][0]` on a list: the first index whose element satisfies
`p`, or `none` (the source's caught `IndexError`) when there is none. -/
def firstTrueIdx (p : α → Bool) : List α → Option ℕ
  | [] => none
  | x :: xs => if p x then some 0 else (firstTrueIdx p xs).map (· + 1)

/-- `np.argmax`: the first index of the maximum element (0 on `[]`, which
the source never hits). -/
def npArgmax : List α → ℕ
  | [] => 0
  | [_] => 0
  | x :: y :: rest =>
      if (y :: rest).getD (npArgmax (y :: rest)) 0 ≤ x then 0
      else npArgmax (y :: rest) + 1

/-- Source line 85: `start = np.where(d > 0)[0][0]` on `d = np.diff(corr)`. -/
def findStart (corr : List α) : Option ℕ :=
  firstTrueIdx (fun x => decide (0 < x)) (npDiff corr)

/-- Source line 86: `peak = np.argmax(corr[start:]) + start`. -/
def findPeak (corr : List α) (start : ℕ) : ℕ :=
  npArgmax (corr.drop start) + start

/-- Source lines 90-96: parabolic sub-sample refinement of the integer
peak.  When `0 < peak < len(corr) - 1`, `peak_refined = peak +
(alpha - gamma) / (2 * (alpha - 2*beta + gamma))` with numpy (non-raising)
division; otherwise the unrefined integer `peak`. -/
def refineLag (corr : List α) (peak : ℕ) : NF α :=
  if 0 < peak ∧ peak < corr.length - 1 then
    nfAdd (.fin (peak : α))
      (nfDiv (.fin (corr.getD (peak - 1) 0 - corr.getD (peak + 1) 0))
        (.fin (2 * (corr.getD (peak - 1) 0 - 2 * corr.getD peak 0
          + corr.getD (peak + 1) 0))))
  else .fin (peak : α)

/-- Source line 98: `freq = SAMPLE_RATE / peak_refined` (numpy division). -/
def freqOfLag (lag : NF α) : NF α := nfDiv (.fin (SAMPLE_RATE : α)) lag

/-- Source lines 83-101 as one function of the autocorrelation array: the
trough-then-peak search, refinement, frequency conversion and the
60..500 Hz plausibility filter.  `none` means the iteration emits
nothing (`continue`). -/
def pitchFromCorr (corr : List α) : Option (NF α) :=
  match findStart corr with
  | none => none
  | some start =>
      if nfLt (freqOfLag (refineLag corr (findPeak corr start))) (.fin 60) ||
          nfLt (.fin 500) (freqOfLag (refineLag corr (findPeak corr start))) then none
      else some (freqOfLag (refineLag corr (findPeak corr start)))

/-- `np.mean(samples**2)` (source line 74). -/
def meanSq (samples : List α) : α :=
  (samples.map (fun s => s ^ 2)).sum / (samples.length : α)

/-- Source line 74: `volume = np.sqrt(np.mean(samples**2))`, with the
square root passed as the parameter `sq`. -/
def volume (sq : α → α) (samples : List α) : α := sq (meanSq samples)

/-- `samples * window` (source line 80), elementwise; `w` is the fixed
Hann window `np.hanning(BUFFER_SIZE)` of source line 62. -/
def windowed (w samples : List α) : List α := List.zipWith (· * ·) samples w

/-- Source lines 80-81: the nonnegative-lag half of
`np.correlate(v, v, mode='full')`, i.e. `corr[j] = Σ_i v[i] * v[i+j]`. -/
def autocorr (v : List α) : List α :=
  (List.range v.length).map fun j =>
    ((List.range (v.length - j)).map fun i => v.getD i 0 * v.getD (i + j) 0).sum

/-- Source lines 113-119 (automatic mode): the fold over `GUITAR_STRINGS`
carrying `(target_freq, closest_note_name, min_dist)`, updating on a
strict improvement `dist < min_dist`. -/
def resolveAutoGo (freq : NF α) : List (String × α) → α × String × NF α → α × String × NF α
  | [], acc => acc
  | (name, f) :: rest, (tf, nm, md) =>
      let dist := nfAbs (nfSub (.fin f) freq)
      if nfLt dist md then resolveAutoGo freq rest (f, name, dist)
      else resolveAutoGo freq rest (tf, nm, md)

/-- Automatic target resolution, from the initial state
`target_freq = 0`, `closest_note_name = ""`, `min_dist = float('inf')`
(source lines 104-105, 113). -/
def resolveAuto (freq : NF α) : α × String :=
  ((resolveAutoGo freq (GUITAR_STRINGS α) (0, "", .pinf)).1,
   (resolveAutoGo freq (GUITAR_STRINGS α) (0, "", .pinf)).2.1)

/-- Source lines 107-111 (manual mode): `target_freq = self.manual_target`
and the name scan `for name, f in GUITAR_STRINGS.items(): if f ==
target_freq: closest_note_name = name` (no break: the last match wins),
from the initial `closest_note_name = ""`. -/
def resolveManual (m : α) : α × String :=
  (m, (GUITAR_STRINGS α).foldl (fun nm p => if p.2 = m then p.1 else nm) "")

/-- Source lines 103-119: target resolution.  `if self.manual_target:`
uses Python truthiness, so a stored `0.0` (never produced by
`set_manual_target`) would also select automatic mode. -/
def resolveTarget (manual : Option α) (freq : NF α) : α × String :=
  match manual with
  | some m => if m = 0 then resolveAuto freq else resolveManual m
  | none => resolveAuto freq

/-- Python's `math.log2` on a numpy scalar: `ValueError` on a nonpositive
finite argument or `-∞`; `+∞ ↦ +∞`, `NaN ↦ NaN`; on positive finite
values the mathematical base-2 logarithm, passed as `lg`. -/
def math_log2 (lg : α → α) : NF α → Except Unit (NF α)
  | .nan => .ok .nan
  | .pinf => .ok .pinf
  | .ninf => .error ()
  | .fin x => if 0 < x then .ok (.fin (lg x)) else .error ()

/-- Source lines 121-124: `cents = 1200 * math.log2(freq / target_freq)`
with `cents = 0` on `ValueError`.  `freq` is a numpy scalar, so the
division itself never raises. -/
def centsOf (lg : α → α) (freq : NF α) (target : α) : NF α :=
  match math_log2 lg (nfDiv freq (.fin target)) with
  | .error _ => .fin 0
  | .ok v => nfMul (.fin 1200) v

/-- One `TuningReading` handed to the observer callback:
`(freq, cents, note_name, is_active)`. -/
structure Reading (α : Type) where
  freq : NF α
  cents : NF α
  note : String
  isActive : Bool
deriving DecidableEq

/-- The silence reading `callback_func(0, 0, "Silence", False)` of source
line 76. -/
def silenceReading : Reading α := ⟨.fin 0, .fin 0, "Silence", false⟩

/-- One iteration of `_process_loop` (source lines 73-126) on a captured
buffer: the volume gate, then pitch detection, target resolution and
cents computation.  `none` models an iteration that emits no reading
(`continue`); `some r` models `callback_func(r)`. -/
def processBuffer (w : List α) (sq lg : α → α) (manual : Option α)
    (samples : List α) : Option (Reading α) :=
  if volume sq samples < NOISE_THRESHOLD α then some silenceReading
  else
    match pitchFromCorr (autocorr (windowed w samples)) with
    | none => none
    | some freq =>
        let t := resolveTarget manual freq
        some ⟨freq, centsOf lg freq t.1, t.2, true⟩

/-- Source lines 55-59, `AudioBackend.set_manual_target`: `"Auto"` clears
the override; any other name is looked up in `GUITAR_STRINGS`, where a
missing key raises `KeyError` (`Except.error`) before any assignment. -/
def set_manual_target (note : String) : Except Unit (Option α) :=
  if note = "Auto" then .ok none
  else
    match (GUITAR_STRINGS α).find? (fun p => p.1 == note) with
    | some p => .ok (some p.2)
    | none => .error ()

/-- The state `self.manual_target` after a call that may raise: a raising
call leaves the previous state `cur` untouched (the assignment in the
source is the last action of the non-raising paths). -/
def applyExcept (r : Except Unit (Option α)) (cur : Option α) : Option α :=
  match r with
  | .ok s => s
  | .error _ => cur

/-- Source lines 193-194 of `update_ui`:
`normalized_val = (cents + 50) / 100` clamped by
`max(0.0, min(1.0, normalized_val))`. -/
def normalized_val (cents : α) : α := max 0 (min 1 ((cents + 50) / 100))

/-- Source lines 198-209 of `update_ui`: the discrete tuning state, named
as the spec names the three branches (`"perfect"` = the GREEN/PERFECT
branch, `"flat"` = ORANGE/`Too Flat (Tune Up)`, `"sharp"` =
RED/`Too Sharp (Tune Down)`). -/
def tuningState (cents : α) : String :=
  if |cents| < 5 then "perfect" else if cents < 0 then "flat" else "sharp"

/-! ## Statement abbreviations for two claims about the refinement step -/

/-- The conclusion of claim C1 at a correlation array `corr` and search
start `start`: the refinement denominator is strictly negative (so the
guarded zero-denominator case is unreachable), the refined lag is finite
(never `NaN` or `±∞`), and — vacuously, since the denominator is never
zero — a zero denominator would come with the unrefined frequency
`SAMPLE_RATE / peak`. -/
def C1Prop (corr : List ℚ) (start : ℕ) : Prop :=
  corr.getD (findPeak corr start - 1) 0 - 2 * corr.getD (findPeak corr start) 0
      + corr.getD (findPeak corr start + 1) 0 < 0 ∧
  (∃ x : ℚ, refineLag corr (findPeak corr start) = .fin x) ∧
  (corr.getD (findPeak corr start - 1) 0 - 2 * corr.getD (findPeak corr start) 0
      + corr.getD (findPeak corr start + 1) 0 = 0 →
    freqOfLag (refineLag corr (findPeak corr start)) =
      .fin ((SAMPLE_RATE : ℚ) / (findPeak corr start : ℚ)))

/-- The conclusion of claim C6 at a correlation array `corr` and search
start `start`: with the peak strictly inside the array the lag used for
frequency conversion is exactly `peak + (c[peak-1] - c[peak+1]) /
(2 * (c[peak-1] - 2*c[peak] + c[peak+1]))` (exact field division — the
denominator is provably nonzero there), and at a boundary peak the
unrefined integer lag is used. -/
def C6Prop (corr : List ℚ) (start : ℕ) : Prop :=
  (0 < findPeak corr start ∧ findPeak corr start < corr.length - 1 →
    refineLag corr (findPeak corr start) =
      .fin ((findPeak corr start : ℚ) +
        (corr.getD (findPeak corr start - 1) 0 - corr.getD (findPeak corr start + 1) 0) /
          (2 * (corr.getD (findPeak corr start - 1) 0
            - 2 * corr.getD (findPeak corr start) 0
            + corr.getD (findPeak corr start + 1) 0)))) ∧
  (¬(0 < findPeak corr start ∧ findPeak corr start < corr.length - 1) →
    refineLag corr (findPeak corr start) = .fin (findPeak corr start : ℚ))

/-! ## Lemmas about the list helpers -/

lemma firstTrueIdx_some (p : α → Bool) (l : List α) (i : ℕ)
    (h : firstTrueIdx p l = some i) : i < l.length ∧ p (l.getD i 0) = true := by
  induction l generalizing i with
  | nil => simp [firstTrueIdx] at h
  | cons x xs ih =>
      by_cases hx : p x
      · simp [firstTrueIdx, hx] at h
        subst h
        simpa using hx
      · simp [firstTrueIdx, hx] at h
        obtain ⟨j, hj, rfl⟩ := h
        obtain ⟨hj1, hj2⟩ := ih j hj
        exact ⟨by simpa using hj1, by simpa using hj2⟩

lemma npDiff_length (l : List α) : (npDiff l).length = l.length - 1 := by
  induction l with
  | nil => simp [npDiff]
  | cons x xs ih =>
      cases xs with
      | nil => simp [npDiff]
      | cons y rest => simpa [npDiff] using ih

lemma npDiff_getD (l : List α) (i : ℕ) (h : i + 1 < l.length) :
    (npDiff l).getD i 0 = l.getD (i + 1) 0 - l.getD i 0 := by
  induction l generalizing i with
  | nil => simp at h
  | cons x xs ih =>
      cases xs with
      | nil => simp at h
      | cons y rest =>
          cases i with
          | zero => simp [npDiff]
          | succ k =>
              have hk : k + 1 < (y :: rest).length := by
                simpa using Nat.lt_of_succ_lt_succ h
              simpa [npDiff] using ih k hk

lemma getD_drop (l : List α) (n i : ℕ) :
    (l.drop n).getD i 0 = l.getD (n + i) 0 := by
  induction l generalizing n with
  | nil => simp
  | cons x xs ih =>
      cases n with
      | zero => simp
      | succ m =>
          have : m + 1 + i = (m + i) + 1 := by omega
          rw [this]
          simp only [List.drop_succ_cons, List.getD_cons_succ]
          exact ih m

lemma npArgmax_lt_length (l : List α) (h : l ≠ []) : npArgmax l < l.length := by
  induction l with
  | nil => exact absurd rfl h
  | cons x xs ih =>
      cases xs with
      | nil => simp [npArgmax]
      | cons y rest =>
          by_cases hc : (y :: rest).getD (npArgmax (y :: rest)) 0 ≤ x
          · simp only [npArgmax]
            rw [if_pos hc]
            simp
          · have h2 := ih (by simp)
            simp only [npArgmax]
            rw [if_neg hc]
            simp only [List.length_cons] at h2 ⊢
            omega

lemma npArgmax_le (l : List α) (j : ℕ) (hj : j < l.length) :
    l.getD j 0 ≤ l.getD (npArgmax l) 0 := by
  induction l generalizing j with
  | nil => simp at hj
  | cons x xs ih =>
      cases xs with
      | nil =>
          have : j = 0 := by simpa using Nat.lt_one_iff.mp (by simpa using hj)
          subst this
          simp [npArgmax]
      | cons y rest =>
          by_cases hc : (y :: rest).getD (npArgmax (y :: rest)) 0 ≤ x
          · simp only [npArgmax]
            rw [if_pos hc]
            simp only [List.getD_cons_zero]
            cases j with
            | zero => simp
            | succ k =>
                have hk : k < (y :: rest).length := by simpa using Nat.lt_of_succ_lt_succ hj
                calc (x :: y :: rest).getD (k + 1) 0
                    = (y :: rest).getD k 0 := by simp
                  _ ≤ (y :: rest).getD (npArgmax (y :: rest)) 0 := ih k hk
                  _ ≤ x := hc
          · simp only [npArgmax]
            rw [if_neg hc]
            simp only [List.getD_cons_succ]
            cases j with
            | zero =>
                simpa using le_of_lt (lt_of_not_le hc)
            | succ k =>
                have hk : k < (y :: rest).length := by simpa using Nat.lt_of_succ_lt_succ hj
                simpa using ih k hk

lemma npArgmax_first (l : List α) (j : ℕ) (hj : j < npArgmax l) :
    l.getD j 0 < l.getD (npArgmax l) 0 := by
  induction l generalizing j with
  | nil => simp [npArgmax] at hj
  | cons x xs ih =>
      cases xs with
      | nil => simp [npArgmax] at hj
      | cons y rest =>
          by_cases hc : (y :: rest).getD (npArgmax (y :: rest)) 0 ≤ x
          · simp only [npArgmax] at hj
            rw [if_pos hc] at hj
            exact absurd hj (by omega)
          · simp only [npArgmax] at hj ⊢
            rw [if_neg hc] at hj ⊢
            cases j with
            | zero => simpa using lt_of_not_le hc
            | succ k =>
                have hk : k < npArgmax (y :: rest) := Nat.lt_of_succ_lt_succ hj
                simpa using ih k hk

/-! ## Lemmas about `NF` arithmetic -/

@[simp] lemma nfAdd_fin (a b : α) : nfAdd (.fin a) (.fin b) = .fin (a + b) := rfl

@[simp] lemma nfSub_fin (a b : α) : nfSub (.fin a) (.fin b) = .fin (a - b) := by
  simp [nfSub, nfNeg, nfAdd, sub_eq_add_neg]

@[simp] lemma nfAbs_fin (a : α) : nfAbs (.fin a) = .fin |a| := rfl

@[simp] lemma nfLt_fin (a b : α) : nfLt (.fin a) (.fin b) = decide (a < b) := rfl

@[simp] lemma nfLt_fin_pinf (a : α) : nfLt (.fin a) .pinf = true := rfl

lemma nfDiv_fin_of_ne (a b : α) (hb : b ≠ 0) :
    nfDiv (.fin a) (.fin b) = .fin (a / b) := by
  simp [nfDiv, hb]

/-! ## The refinement denominator is strictly negative

Whenever the source reaches the parabolic-refinement branch, the integer
peak is the first maximum of `corr[start:]` strictly after the rising
step at `start`, so `corr[peak-1] < corr[peak]` and
`corr[peak+1] ≤ corr[peak]`: in exact arithmetic the denominator
`corr[peak-1] - 2*corr[peak] + corr[peak+1]` can never be zero. -/

lemma findStart_some (corr : List α) (start : ℕ) (h : findStart corr = some start) :
    start + 1 < corr.length ∧ corr.getD start 0 < corr.getD (start + 1) 0 := by
  obtain ⟨h1, h2⟩ := firstTrueIdx_some _ _ _ h
  rw [npDiff_length] at h1
  have hlt : start + 1 < corr.length := by omega
  refine ⟨hlt, ?_⟩
  rw [npDiff_getD corr start hlt] at h2
  have : (0 : α) < corr.getD (start + 1) 0 - corr.getD start 0 := by
    simpa using h2
  linarith

lemma start_succ_le_findPeak (corr : List α) (start : ℕ)
    (h : findStart corr = some start) : start + 1 ≤ findPeak corr start := by
  obtain ⟨hlt, hstep⟩ := findStart_some corr start h
  unfold findPeak
  rcases Nat.lt_or_ge (npArgmax (corr.drop start)) 1 with hk | hk
  · exfalso
    have hk0 : npArgmax (corr.drop start) = 0 := by omega
    have h1 : 1 < (corr.drop start).length := by
      rw [List.length_drop]; omega
    have := npArgmax_le (corr.drop start) 1 h1
    rw [hk0, getD_drop, getD_drop] at this
    simp only [Nat.add_zero] at this
    exact absurd this (not_le.mpr hstep)
  · omega

lemma denom_neg (corr : List α) (start : ℕ)
    (h1 : findStart corr = some start)
    (h2 : findPeak corr start < corr.length - 1) :
    corr.getD (findPeak corr start - 1) 0 - 2 * corr.getD (findPeak corr start) 0
      + corr.getD (findPeak corr start + 1) 0 < 0 := by
  obtain ⟨hlen, _⟩ := findStart_some corr start h1
  have hp := start_succ_le_findPeak corr start h1
  set k := npArgmax (corr.drop start) with hk
  have hpeak : findPeak corr start = k + start := rfl
  have hk1 : 1 ≤ k := by omega
  have hslice : (corr.drop start).length = corr.length - start := List.length_drop start corr
  -- beta = slice[k]
  have hbeta : corr.getD (findPeak corr start) 0 = (corr.drop start).getD k 0 := by
    rw [getD_drop, hpeak, Nat.add_comm]
  -- alpha = slice[k-1] < slice[k]
  have halpha : corr.getD (findPeak corr start - 1) 0 = (corr.drop start).getD (k - 1) 0 := by
    rw [getD_drop, hpeak]
    congr 1
    omega
  have ha : (corr.drop start).getD (k - 1) 0 < (corr.drop start).getD k 0 := by
    have := npArgmax_first (corr.drop start) (k - 1) (by omega)
    rwa [← hk] at this
  -- gamma = slice[k+1] ≤ slice[k]
  have hgamma : corr.getD (findPeak corr start + 1) 0 = (corr.drop start).getD (k + 1) 0 := by
    rw [getD_drop, hpeak]
    congr 1
    omega
  have hg : (corr.drop start).getD (k + 1) 0 ≤ (corr.drop start).getD k 0 := by
    have hkk : k + 1 < (corr.drop start).length := by
      rw [hslice]
      have : findPeak corr start + 1 < corr.length := by omega
      omega
    have := npArgmax_le (corr.drop start) (k + 1) hkk
    rwa [← hk] at this
  rw [hbeta, halpha, hgamma]
  linarith

/-! ## The automatic resolver picks the first nearest note

`resolveAutoGo` with a finite detected frequency keeps the first strict
improvement, so it returns the first entry minimizing `|f_target - freq|`:
everything strictly before the returned index is strictly farther, and
nothing anywhere is strictly nearer. -/

lemma resolveAutoGo_spec (q : α) (l : List (String × α)) (tf : α) (nm : String)
    (md : NF α) (hmd : md = .pinf ∨ ∃ m, md = .fin m) :
    (resolveAutoGo (.fin q) l (tf, nm, md) = (tf, nm, md) ∧
      ∀ p ∈ l, nfLt (.fin |p.2 - q|) md = false) ∨
    (∃ i, ∃ hi : i < l.length,
      resolveAutoGo (.fin q) l (tf, nm, md) = (l[i].2, l[i].1, .fin |l[i].2 - q|) ∧
      nfLt (.fin |l[i].2 - q|) md = true ∧
      (∀ j, ∀ hj : j < l.length, |l[i].2 - q| ≤ |l[j].2 - q|) ∧
      (∀ j, ∀ hj : j < l.length, j < i → |l[i].2 - q| < |l[j].2 - q|)) := by
  induction l generalizing tf nm md with
  | nil => exact Or.inl ⟨rfl, by simp⟩
  | cons hd rest ih =>
      obtain ⟨s, f⟩ := hd
      have hdist : nfAbs (nfSub (.fin f) (.fin q)) = NF.fin |f - q| := by simp
      by_cases himp : nfLt (.fin |f - q|) md = true
      · have step : resolveAutoGo (.fin q) ((s, f) :: rest) (tf, nm, md) =
            resolveAutoGo (.fin q) rest (f, s, .fin |f - q|) := by
          simp [resolveAutoGo, hdist, himp]
        rcases ih f s (.fin |f - q|) (Or.inr ⟨_, rfl⟩) with
          ⟨heq, hall⟩ | ⟨i, hi, heq, himp2, hmin, hfirst⟩
        · refine Or.inr ⟨0, by simp, ?_, ?_, ?_, ?_⟩
          · rw [step, heq]
            simp
          · simpa using himp
          · intro j hj
            cases j with
            | zero => simp
            | succ k =>
                have hk : k < rest.length := by simpa using Nat.lt_of_succ_lt_succ hj
                have := hall rest[k] (List.getElem_mem hk)
                simp only [nfLt_fin, decide_eq_false_iff_not, not_lt] at this
                simpa using this
          · intro j hj hji
            omega
        · refine Or.inr ⟨i + 1, by simpa using Nat.succ_lt_succ hi, ?_, ?_, ?_, ?_⟩
          · rw [step, heq]
            simp
          · have hle : |rest[i].2 - q| < |f - q| := by simpa using himp2
            rcases hmd with rfl | ⟨m, rfl⟩
            · simp
            · have himp3 : |f - q| < m := by simpa using himp
              simp only [List.getElem_cons_succ, nfLt_fin, decide_eq_true_eq]
              linarith
          · intro j hj
            cases j with
            | zero =>
                have hle : |rest[i].2 - q| < |f - q| := by simpa using himp2
                simpa using le_of_lt hle
            | succ k =>
                have hk : k < rest.length := by simpa using Nat.lt_of_succ_lt_succ hj
                simpa using hmin k hk
          · intro j hj hji
            cases j with
            | zero =>
                have hle : |rest[i].2 - q| < |f - q| := by simpa using himp2
                simpa using hle
            | succ k =>
                have hk : k < rest.length := by simpa using Nat.lt_of_succ_lt_succ hj
                have hki : k < i := by omega
                simpa using hfirst k hk hki
      · have himpf : nfLt (.fin |f - q|) md = false := by
          simpa using himp
        have step : resolveAutoGo (.fin q) ((s, f) :: rest) (tf, nm, md) =
            resolveAutoGo (.fin q) rest (tf, nm, md) := by
          simp [resolveAutoGo, hdist, himpf]
        obtain ⟨m, rfl⟩ : ∃ m, md = NF.fin m := by
          rcases hmd with rfl | h
          · exact absurd (nfLt_fin_pinf |f - q|) (by simp [himpf])
          · exact h
        have hfm : m ≤ |f - q| := by
          simpa [nfLt_fin, decide_eq_false_iff_not, not_lt] using himpf
        rcases ih tf nm (.fin m) (Or.inr ⟨m, rfl⟩) with
          ⟨heq, hall⟩ | ⟨i, hi, heq, himp2, hmin, hfirst⟩
        · refine Or.inl ⟨step.trans heq, ?_⟩
          intro p hp
          rcases List.mem_cons.mp hp with rfl | hp
          · exact himpf
          · exact hall p hp
        · have hid : |rest[i].2 - q| < m := by
            simpa using himp2
          refine Or.inr ⟨i + 1, by simpa using Nat.succ_lt_succ hi, ?_, ?_, ?_, ?_⟩
          · rw [step, heq]
            simp
          · simp only [List.getElem_cons_succ, nfLt_fin, decide_eq_true_eq]
            exact hid
          · intro j hj
            cases j with
            | zero =>
                have : |rest[i].2 - q| < |f - q| := lt_of_lt_of_le hid hfm
                simpa using le_of_lt this
            | succ k =>
                have hk : k < rest.length := by simpa using Nat.lt_of_succ_lt_succ hj
                simpa using hmin k hk
          · intro j hj hji
            cases j with
            | zero =>
                simpa using lt_of_lt_of_le hid hfm
            | succ k =>
                have hk : k < rest.length := by simpa using Nat.lt_of_succ_lt_succ hj
                have hki : k < i := by omega
                simpa using hfirst k hk hki

/-! ## The claims -/

/-- C1: for every correlation array whose integer peak lies strictly
inside the array, the refinement denominator
`c[peak-1] - 2*c[peak] + c[peak+1]` is strictly negative — the guarded
zero-denominator case is unreachable in exact arithmetic, so the claimed
fallback (`frequency = SAMPLE_RATE / peak`, no division error, no
non-finite refined lag) holds, the implication vacuously and the
finiteness of the refined lag outright. -/
theorem C1_zero_denominator_fallback (corr : List ℚ) (start : ℕ)
    (h1 : findStart corr = some start)
    (h2 : 0 < findPeak corr start ∧ findPeak corr start < corr.length - 1) :
    C1Prop corr start := by
  have hneg := denom_neg corr start h1 h2.2
  refine ⟨hneg, ?_, fun h0 => absurd h0 (ne_of_lt hneg)⟩
  unfold refineLag
  rw [if_pos h2]
  have hden : 2 * (corr.getD (findPeak corr start - 1) 0
      - 2 * corr.getD (findPeak corr start) 0
      + corr.getD (findPeak corr start + 1) 0) ≠ 0 := by
    intro h
    exact absurd (by linarith : corr.getD (findPeak corr start - 1) 0
      - 2 * corr.getD (findPeak corr start) 0
      + corr.getD (findPeak corr start + 1) 0 = 0) (ne_of_lt hneg)
  rw [nfDiv_fin_of_ne _ _ hden, nfAdd_fin]
  exact ⟨_, rfl⟩

/-- Witness for C1 at the concrete array `[5, 1, 3, 2, 0]`: the search
starts at index 1, the peak is the interior index 2. -/
theorem C1_witness : C1Prop [5, 1, 3, 2, 0] 1 :=
  C1_zero_denominator_fallback [5, 1, 3, 2, 0] 1
    (by norm_num [findStart, npDiff, firstTrueIdx])
    (by norm_num [findPeak, npArgmax])

/-- C6: under the trough-then-peak search, an interior peak is refined to
exactly `peak + (c[peak-1] - c[peak+1]) / (2 * (c[peak-1] - 2*c[peak] +
c[peak+1]))`, and a boundary peak is left at the unrefined integer lag. -/
theorem C6_refinement_formula (corr : List ℚ) (start : ℕ)
    (h1 : findStart corr = some start) : C6Prop corr start := by
  constructor
  · intro h2
    have hneg := denom_neg corr start h1 h2.2
    unfold refineLag
    rw [if_pos h2]
    have hden : 2 * (corr.getD (findPeak corr start - 1) 0
        - 2 * corr.getD (findPeak corr start) 0
        + corr.getD (findPeak corr start + 1) 0) ≠ 0 := by
      intro h
      exact absurd (by linarith : corr.getD (findPeak corr start - 1) 0
        - 2 * corr.getD (findPeak corr start) 0
        + corr.getD (findPeak corr start + 1) 0 = 0) (ne_of_lt hneg)
    rw [nfDiv_fin_of_ne _ _ hden, nfAdd_fin]
  · intro h2
    unfold refineLag
    rw [if_neg h2]

/-- Witness for C6 at the concrete array `[2, 0, 1, 2, 1, 0]` (search
start 1, interior peak 3, refined lag `3 + 0/(-4) = 3`). -/
theorem C6_witness : C6Prop [2, 0, 1, 2, 1, 0] 1 :=
  C6_refinement_formula [2, 0, 1, 2, 1, 0] 1
    (by norm_num [findStart, npDiff, firstTrueIdx])

/-- C3: in automatic mode the resolver returns an entry of the reference
table minimizing `|referenceFrequency - detectedFrequency|`, and every
entry strictly earlier in the canonical table order is strictly farther —
i.e. ties go to the first note in the order E2, A2, D3, G3, B3, E4. -/
theorem C3_auto_nearest_first (q : ℚ) :
    ∃ i, ∃ hi : i < (GUITAR_STRINGS ℚ).length,
      resolveAuto (.fin q) = ((GUITAR_STRINGS ℚ)[i].2, (GUITAR_STRINGS ℚ)[i].1) ∧
      (∀ j, ∀ hj : j < (GUITAR_STRINGS ℚ).length,
        |(GUITAR_STRINGS ℚ)[i].2 - q| ≤ |(GUITAR_STRINGS ℚ)[j].2 - q|) ∧
      (∀ j, ∀ hj : j < (GUITAR_STRINGS ℚ).length, j < i →
        |(GUITAR_STRINGS ℚ)[i].2 - q| < |(GUITAR_STRINGS ℚ)[j].2 - q|) := by
  rcases resolveAutoGo_spec q (GUITAR_STRINGS ℚ) 0 "" .pinf (Or.inl rfl) with
    ⟨heq, hall⟩ | ⟨i, hi, heq, himp, hmin, hfirst⟩
  · exfalso
    have hmem : ("E2", (82.41 : ℚ)) ∈ GUITAR_STRINGS ℚ := by
      simp [GUITAR_STRINGS]
    have := hall _ hmem
    simp at this
  · refine ⟨i, hi, ?_, hmin, hfirst⟩
    unfold resolveAuto
    rw [heq]

/-- Witness for C3 at `q = 96.205`, the exact midpoint of E2 (82.41 Hz)
and A2 (110 Hz): both are 13.795 Hz away and the resolver returns E2, the
first of the two in canonical order. -/
theorem C3_witness : resolveAuto (.fin (19241/200 : ℚ)) = ((82.41 : ℚ), "E2") := by
  obtain ⟨i, hi, heq, hmin, hfirst⟩ := C3_auto_nearest_first (19241/200)
  have h6 : i < 6 := by simpa [GUITAR_STRINGS] using hi
  interval_cases i
  · rw [heq]
    norm_num [GUITAR_STRINGS]
  · exact absurd (hfirst 0 (by norm_num [GUITAR_STRINGS]) (by norm_num))
      (by norm_num [GUITAR_STRINGS, abs_of_nonneg, abs_of_nonpos])
  · exact absurd (hmin 0 (by norm_num [GUITAR_STRINGS]))
      (by norm_num [GUITAR_STRINGS, abs_of_nonneg, abs_of_nonpos])
  · exact absurd (hmin 0 (by norm_num [GUITAR_STRINGS]))
      (by norm_num [GUITAR_STRINGS, abs_of_nonneg, abs_of_nonpos])
  · exact absurd (hmin 0 (by norm_num [GUITAR_STRINGS]))
      (by norm_num [GUITAR_STRINGS, abs_of_nonneg, abs_of_nonpos])
  · exact absurd (hmin 0 (by norm_num [GUITAR_STRINGS]))
      (by norm_num [GUITAR_STRINGS, abs_of_nonneg, abs_of_nonpos])

/-- C4: with a manual override set to a reference note's frequency, the
resolver returns that note's frequency and name, whatever the detected
frequency is. -/
theorem C4_manual_override (freq : NF ℚ) (p : String × ℚ)
    (hp : p ∈ GUITAR_STRINGS ℚ) : resolveTarget (some p.2) freq = (p.2, p.1) := by
  fin_cases hp <;> norm_num [resolveTarget, resolveManual, GUITAR_STRINGS]

/-- Witness for C4: manual target E2 (82.41 Hz) with a detected frequency
of 300 Hz, whose nearest note would be E4. -/
theorem C4_witness :
    resolveTarget (some (82.41 : ℚ)) (.fin 300) = ((82.41 : ℚ), "E2") :=
  C4_manual_override (.fin 300) ("E2", 82.41) (by simp [GUITAR_STRINGS])

/-- C10: `set_manual_target "Auto"` stores `none`; a valid note name
stores exactly that note's frequency; any other string raises `KeyError`
(`Except.error`) and — the assignment never having run — leaves the
stored target unchanged. -/
theorem C10_set_manual_target (s : String) (cur : Option ℚ) :
    ((set_manual_target "Auto" : Except Unit (Option ℚ)) = .ok none) ∧
    (∀ p ∈ GUITAR_STRINGS ℚ,
      (set_manual_target p.1 : Except Unit (Option ℚ)) = .ok (some p.2)) ∧
    (s ≠ "Auto" → (GUITAR_STRINGS ℚ).find? (fun p => p.1 == s) = none →
      (set_manual_target s : Except Unit (Option ℚ)) = .error () ∧
      applyExcept (set_manual_target s) cur = cur) := by
  refine ⟨by simp [set_manual_target], ?_, ?_⟩
  · intro p hp
    fin_cases hp <;> simp [set_manual_target, GUITAR_STRINGS, List.find?]
  · intro hs hf
    have h1 : (set_manual_target s : Except Unit (Option ℚ)) = .error () := by
      unfold set_manual_target
      rw [if_neg hs, hf]
    refine ⟨h1, ?_⟩
    rw [h1, applyExcept]

/-- C5: a buffer whose volume `sqrt(mean(samples^2))` is below the 0.02
noise threshold makes the iteration emit exactly the silence reading
`(0, 0, "Silence", False)`, for every window, square root, logarithm and
manual-override state — the later pipeline stages cannot influence the
result. -/
theorem C5_volume_gate (w : List ℚ) (sq lg : ℚ → ℚ) (manual : Option ℚ)
    (samples : List ℚ) (h : volume sq samples < NOISE_THRESHOLD ℚ) :
    processBuffer w sq lg manual samples = some silenceReading := by
  unfold processBuffer
  rw [if_pos h]

/-- Witness for C5: the all-zero buffer (volume 0). -/
theorem C5_witness :
    processBuffer ([] : List ℚ) id id none [0, 0, 0, 0] = some silenceReading :=
  C5_volume_gate [] id id none [0, 0, 0, 0]
    (by norm_num [volume, meanSq, NOISE_THRESHOLD])

/-- C7: a voiced buffer (volume at or above threshold) in which either no
index of positive first difference of the autocorrelation exists, or the
converted frequency fails the `freq < 60 or freq > 500` filter, makes the
iteration emit nothing at all. -/
theorem C7_no_emission (w : List ℚ) (sq lg : ℚ → ℚ) (manual : Option ℚ)
    (samples : List ℚ)
    (hv : ¬ volume sq samples < NOISE_THRESHOLD ℚ)
    (hd : findStart (autocorr (windowed w samples)) = none ∨
      ∃ start, findStart (autocorr (windowed w samples)) = some start ∧
        (nfLt (freqOfLag (refineLag (autocorr (windowed w samples))
            (findPeak (autocorr (windowed w samples)) start))) (.fin 60) ||
          nfLt (.fin 500) (freqOfLag (refineLag (autocorr (windowed w samples))
            (findPeak (autocorr (windowed w samples)) start)))) = true) :
    processBuffer w sq lg manual samples = none := by
  have hp : pitchFromCorr (autocorr (windowed w samples)) = none := by
    rcases hd with h | ⟨start, hs, hf⟩
    · unfold pitchFromCorr
      rw [h]
    · unfold pitchFromCorr
      rw [hs]
      exact if_pos hf
  unfold processBuffer
  rw [if_neg hv, hp]

/-- Witness for C7: a constant buffer of ones (volume 1, voiced) whose
windowed autocorrelation `[4, 3, 2, 1]` is strictly decreasing, so no
positive first difference exists and nothing is emitted. -/
theorem C7_witness :
    processBuffer ([1, 1, 1, 1] : List ℚ) id id none [1, 1, 1, 1] = none :=
  C7_no_emission [1, 1, 1, 1] id id none [1, 1, 1, 1]
    (by norm_num [volume, meanSq, NOISE_THRESHOLD])
    (Or.inl (by norm_num [autocorr, windowed, findStart, npDiff, firstTrueIdx,
      List.range_succ]))

/-- C8: the display mapping `max(0, min(1, (cents + 50)/100))` is
monotonically non-decreasing, sends -100 to 0, 0 to 1/2 and +100 to 1,
and is pegged at 0 below -50 cents and at 1 above +50 cents. -/
theorem C8_display_clamp (c₁ c₂ : ℝ) :
    (c₁ ≤ c₂ → normalized_val c₁ ≤ normalized_val c₂) ∧
    normalized_val (-100 : ℝ) = 0 ∧
    normalized_val (0 : ℝ) = 1 / 2 ∧
    normalized_val (100 : ℝ) = 1 ∧
    (c₁ ≤ -50 → normalized_val c₁ = 0) ∧
    (50 ≤ c₁ → normalized_val c₁ = 1) := by
  refine ⟨?_, ?_, ?_, ?_, ?_, ?_⟩
  · intro h
    unfold normalized_val
    exact max_le_max le_rfl (min_le_min le_rfl (by linarith))
  · unfold normalized_val
    rw [show ((-100 : ℝ) + 50) / 100 = -(1 / 2) by norm_num,
      min_eq_right (by norm_num), max_eq_left (by norm_num)]
  · unfold normalized_val
    rw [show ((0 : ℝ) + 50) / 100 = 1 / 2 by norm_num,
      min_eq_right (by norm_num), max_eq_right (by norm_num)]
  · unfold normalized_val
    rw [show ((100 : ℝ) + 50) / 100 = 3 / 2 by norm_num,
      min_eq_left (by norm_num), max_eq_right (by norm_num)]
  · intro h
    unfold normalized_val
    have hx : (c₁ + 50) / 100 ≤ 0 := by linarith
    rw [min_eq_right (le_trans hx (by norm_num)), max_eq_left hx]
  · intro h
    unfold normalized_val
    have hx : (1 : ℝ) ≤ (c₁ + 50) / 100 := by linarith
    rw [min_eq_left hx, max_eq_right (by norm_num)]

/-- C9: the discrete state is `"perfect"` exactly on `|cents| < 5`,
`"flat"` exactly on `cents ≤ -5`, `"sharp"` exactly on `5 ≤ cents`, and
every cents value lands in one of the three states. -/
theorem C9_tuning_state (c : ℝ) :
    (tuningState c = "perfect" ↔ |c| < 5) ∧
    (tuningState c = "flat" ↔ c ≤ -5) ∧
    (tuningState c = "sharp" ↔ 5 ≤ c) ∧
    (tuningState c = "perfect" ∨ tuningState c = "flat" ∨ tuningState c = "sharp") := by
  have hpf : ("perfect" : String) ≠ "flat" := by decide
  have hps : ("perfect" : String) ≠ "sharp" := by decide
  have hfp : ("flat" : String) ≠ "perfect" := by decide
  have hfs : ("flat" : String) ≠ "sharp" := by decide
  have hsp : ("sharp" : String) ≠ "perfect" := by decide
  have hsf : ("sharp" : String) ≠ "flat" := by decide
  unfold tuningState
  split_ifs with h1 h2
  · obtain ⟨ha, hb⟩ := abs_lt.mp h1
    exact ⟨⟨fun _ => h1, fun _ => rfl⟩,
      ⟨fun h => absurd h hpf, fun hc => absurd hc (not_le.mpr (by linarith))⟩,
      ⟨fun h => absurd h hps, fun hc => absurd hc (not_le.mpr (by linarith))⟩,
      Or.inl rfl⟩
  · have h5 : c ≤ -5 := by
      have hge : 5 ≤ |c| := not_lt.mp h1
      rw [abs_of_neg h2] at hge
      linarith
    exact ⟨⟨fun h => absurd h hfp, fun hc => absurd hc h1⟩,
      ⟨fun _ => h5, fun _ => rfl⟩,
      ⟨fun h => absurd h hfs, fun hc => absurd hc (not_le.mpr (by linarith))⟩,
      Or.inr (Or.inl rfl)⟩
  · have hc0 : 0 ≤ c := not_lt.mp h2
    have h5 : 5 ≤ c := by
      have hge : 5 ≤ |c| := not_lt.mp h1
      rwa [abs_of_nonneg hc0] at hge
    exact ⟨⟨fun h => absurd h hsp, fun hc => absurd hc h1⟩,
      ⟨fun h => absurd h hsf, fun hc => absurd hc (not_le.mpr (by linarith))⟩,
      ⟨fun _ => h5, fun _ => rfl⟩,
      Or.inr (Or.inr rfl)⟩

/-- Counterexample to C2 as stated: with targetFrequency = 0 and detected
frequency 100, the numpy quotient is `+∞`, `math.log2(+∞)` returns `+∞`
without raising, and `cents = 1200 * +∞ = +∞` — not the claimed 0. -/
theorem C2_counterexample :
    centsOf (fun x => Real.logb 2 x) (.fin (100 : ℝ)) 0 = NF.pinf ∧
    NF.pinf ≠ NF.fin (0 : ℝ) := by
  constructor
  · have h1 : nfDiv (.fin (100 : ℝ)) (.fin 0) = NF.pinf := by
      norm_num [nfDiv]
    unfold centsOf
    rw [h1]
    norm_num [math_log2, nfMul]
  · simp

/-- C2 amended: the cents computation returns 0 exactly when `math.log2`
raises `ValueError` (nonpositive finite ratio, or `-∞` from a negative
frequency over target 0); a zero target with positive detected frequency
yields `+∞`, with zero detected frequency `NaN`; otherwise
`cents = 1200 * log2(freq / target)`.  No case raises an error. -/
theorem C2_cents_guard (f t : ℝ) :
    centsOf (fun x => Real.logb 2 x) (.fin f) t =
      if t = 0 then
        (if 0 < f then NF.pinf else if f < 0 then NF.fin 0 else NF.nan)
      else if f / t ≤ 0 then NF.fin 0
      else NF.fin (1200 * Real.logb 2 (f / t)) := by
  by_cases ht : t = 0
  · subst ht
    rw [if_pos rfl]
    rcases lt_trichotomy f 0 with hf | hf | hf
    · have h1 : nfDiv (.fin f) (.fin (0 : ℝ)) = NF.ninf := by
        simp [nfDiv, ne_of_lt hf, not_lt.mpr hf.le]
      unfold centsOf
      rw [h1]
      rw [if_neg (not_lt.mpr hf.le), if_pos hf]
      rfl
    · subst hf
      have h1 : nfDiv (.fin (0 : ℝ)) (.fin (0 : ℝ)) = NF.nan := by
        simp [nfDiv]
      unfold centsOf
      rw [h1]
      rw [if_neg (lt_irrefl 0), if_neg (lt_irrefl 0)]
      rfl
    · have h1 : nfDiv (.fin f) (.fin (0 : ℝ)) = NF.pinf := by
        simp [nfDiv, ne_of_gt hf, hf]
      unfold centsOf
      rw [h1]
      rw [if_pos hf]
      norm_num [math_log2, nfMul]
  · rw [if_neg ht]
    have h1 : nfDiv (.fin f) (.fin t) = .fin (f / t) := nfDiv_fin_of_ne f t ht
    unfold centsOf
    rw [h1]
    by_cases hr : f / t ≤ 0
    · rw [if_pos hr]
      have h2 : math_log2 (fun x => Real.logb 2 x) (.fin (f / t)) = .error () := by
        simp [math_log2, not_lt.mpr hr]
      rw [h2]
    · rw [if_neg hr]
      have h0 : 0 < f / t := not_le.mp hr
      have h2 : math_log2 (fun x => Real.logb 2 x) (.fin (f / t)) =
          .ok (.fin (Real.logb 2 (f / t))) := by
        simp [math_log2, h0]
      rw [h2]
      simp [nfMul]
